import Mathlib

/-!
Shallow embedding of `src/main.rs` of the `xtree` repository and proofs about it.

`xtree` is a directory-tree search tool: `scan_dir` walks the filesystem up to a
depth bound and prunes it to the branches containing a case-insensitive name
match, `build_tree_dict` wraps the result in a root node, `highlight_substring`
marks the matched span with ANSI color codes, `print_tree` renders the pruned
tree with box-drawing connectors and a summary footer, and `main` glues the
pieces together.

Modelling conventions:
* Rust `String`/`&str` values are `List Char` (Unicode scalar values); byte
  offsets are recovered through `Char.utf8Size`, which matches Rust's UTF-8
  byte counting.  Rust string slicing panics when an offset is out of bounds or
  not a character boundary, so the slicing helper returns an `Option`.
* A Rust panic is modelled as `none`; functions that can reach a panic return
  `Option`.
* The filesystem is a `DirentList` of entries; a directory entry records
  whether `fs::read_dir` succeeds on it (`readOK`), a non-directory entry only
  its presence, and `errEntry` stands for an entry for which the enumeration
  step or `entry.file_type()` fails (both are skipped by the code).
* `u32`/`usize` counters are modelled as `Nat`; wrap-around at `2 ^ 32`
  (more than four billion matching directories) is out of scope.
* Children collections are a bespoke `Forest`/`DirentList` so that all
  recursion is structural and therefore computable by `decide`/`rfl`.
-/

namespace XtreeModel

/-- Modelled from Rust std `char::to_lowercase` as used by `str::to_lowercase`
(`main.rs` lines 32, 73, 104, 170): the Unicode lowercase mapping, restricted to
the fragment exercised in this development — ASCII `A`–`Z` map to `a`–`z`, and
U+1E9E `ẞ` (LATIN CAPITAL LETTER SHARP S) maps to U+00DF `ß`, exactly as in the
Unicode character database Rust implements.  All other characters are left
unchanged (the full Unicode table is not reproduced; every theorem below either
quantifies over arbitrary names, restricts to ASCII where the mapping is exact,
or instantiates at characters inside the fragment). -/
def rustCharToLower (c : Char) : List Char :=
  if 'A' ≤ c ∧ c ≤ 'Z' then [Char.ofNat (c.toNat + 32)]
  else if c = 'ẞ' then ['ß']
  else [c]

/-- Rust `str::to_lowercase`: concatenate the lowercase expansion of each
character. -/
def rustToLowercase (s : List Char) : List Char :=
  (s.map rustCharToLower).flatten

/-- UTF-8 byte length of a string, as Rust's `str::len`. -/
def utf8Len (s : List Char) : Nat :=
  (s.map Char.utf8Size).sum

/-- Rust `str::contains` with a string pattern: substring containment.
A valid UTF-8 needle occurs in a valid UTF-8 haystack only at character
boundaries (UTF-8 is self-synchronizing), so byte-level containment coincides
with character-level containment. -/
def containsSub (hay needle : List Char) : Bool :=
  needle.isPrefixOf hay ||
    match hay with
    | [] => false
    | _ :: rest => containsSub rest needle

/-- Rust `str::find` with a string pattern: byte offset of the first
occurrence, `none` when absent.  For the same self-synchronization reason the
occurrence starts at a character boundary, whose byte offset is the UTF-8
length of the preceding characters. -/
def findSub (hay needle : List Char) : Option Nat :=
  if needle.isPrefixOf hay then some 0
  else
    match hay with
    | [] => none
    | c :: rest => (findSub rest needle).map (· + c.utf8Size)

/-- Rust byte slicing `(&s[..n], &s[n..])`: defined exactly when byte offset
`n` is in bounds and on a character boundary, the two panic conditions of
Rust's `str` indexing. -/
def byteSplitAt (s : List Char) (n : Nat) : Option (List Char × List Char) :=
  match s, n with
  | s, 0 => some ([], s)
  | [], _ + 1 => none
  | c :: rest, n =>
    if c.utf8Size ≤ n then
      (byteSplitAt rest (n - c.utf8Size)).map (fun p => (c :: p.1, p.2))
    else none

/-- Case-insensitive match test `name.to_lowercase().contains(term)`
(`main.rs` lines 32/35 and 104/105). -/
def matchesName (name term : List Char) : Bool :=
  containsSub (rustToLowercase name) term

/-- ANSI bright-red foreground escape `"\x1b[91m"` (`main.rs` line 78). -/
def redCode : List Char := "\x1b[91m".toList

/-- ANSI reset escape `"\x1b[0m"` (`main.rs` line 78). -/
def resetCode : List Char := "\x1b[0m".toList

/-- Rust `highlight_substring` (`main.rs` lines 72–82).  Finds the byte offset of
`substr_lower` in the lowercased `s` and slices the original-case `s` at that
byte offset; each slice is Rust indexing and can panic (`none`). -/
def highlight_substring (s substr_lower : List Char) : Option (List Char) :=
  let s_lower := rustToLowercase s
  match findSub s_lower substr_lower with
  | some pos =>
    match byteSplitAt s pos with
    | some br =>
      match byteSplitAt br.2 (utf8Len substr_lower) with
      | some ma => some (br.1 ++ redCode ++ ma.1 ++ resetCode ++ ma.2)
      | none => none
    | none => none
  | none => some s

/-! ## Data model

`Tree` is the Rust `struct Tree { name, children }` (`main.rs` lines 7–10);
its `Vec<Tree>` of children is the mutual inductive `Forest` so that all
recursion below is structural.  `Dirent`/`DirentList` model the filesystem
seen through `fs::read_dir`. -/

mutual
/-- Rust `struct Tree` (`main.rs` lines 7–10). -/
inductive Tree where
  | node : List Char → Forest → Tree

/-- The `Vec<Tree>` of children, in order. -/
inductive Forest where
  | nil : Forest
  | cons : Tree → Forest → Forest
end

mutual
/-- One directory entry as observed by `scan_dir`'s enumeration loop
(`main.rs` lines 28–31): a subdirectory (with the outcome of `fs::read_dir`
on it and its own entries), a non-directory entry, or an entry whose
enumeration / `file_type()` call fails and is skipped by
`entries.flatten()` / `if let Ok(file_type)`. -/
inductive Dirent where
  | dir : List Char → Bool → DirentList → Dirent
  | nondir : List Char → Dirent
  | errEntry : Dirent

/-- The sequence of entries `fs::read_dir` yields for one directory, in
enumeration order. -/
inductive DirentList where
  | nil : DirentList
  | cons : Dirent → DirentList → DirentList
end

/-- Name of a tree node (`tree.name`). -/
def Tree.nameOf : Tree → List Char
  | .node n _ => n

/-- Children of a tree node (`tree.children`). -/
def Tree.childrenOf : Tree → Forest
  | .node _ cs => cs

/-- Emptiness test on a forest (`tree.children.len() == 0` shape). -/
def Forest.isNil : Forest → Bool
  | .nil => true
  | .cons _ _ => false

/-- List-literal helper for forests (used only to write concrete inputs). -/
def toForest : List Tree → Forest
  | [] => .nil
  | t :: ts => .cons t (toForest ts)

/-- List-literal helper for entry sequences (used only to write concrete
inputs). -/
def toDL : List Dirent → DirentList
  | [] => .nil
  | e :: es => .cons e (toDL es)

/-! ## Tree builder -/

/-- Body of the enumeration loop of `scan_dir` (`main.rs` lines 24–51),
processing the remaining entries of one directory scanned at depth `depth`.
The recursive call `scan_dir(&entry.path(), depth + 1, max_depth, searchterm_lower)`
is inlined (its depth guard and `read_dir` outcome test come first), which
keeps the recursion structural; the lemma `scanEntries_cons_dir` below
recovers the exact shape of the Rust source, with `scan_dir` itself in the
recursive position. -/
def scanEntries (entries : DirentList) (depth max_depth : Nat)
    (searchterm_lower : List Char) : Forest × Nat :=
  match entries with
  | .nil => (.nil, 0)
  | .cons (.dir name readOK sub) rest =>
    let child :=
      if max_depth ≤ depth + 1 then ((.nil : Forest), 0)
      else if readOK then scanEntries sub (depth + 1) max_depth searchterm_lower
      else ((.nil : Forest), 0)
    let found := matchesName name searchterm_lower
    let score_here := if found then 1 else 0
    let restR := scanEntries rest depth max_depth searchterm_lower
    (if found || decide (0 < child.2) then .cons (.node name child.1) restR.1 else restR.1,
      score_here + child.2 + restR.2)
  | .cons _ rest => scanEntries rest depth max_depth searchterm_lower

/-- Rust `scan_dir` (`main.rs` lines 19–52): bail out at the depth cutoff
(`depth >= max_depth`), then enumerate the directory when `fs::read_dir`
succeeds; an unreadable directory yields no children and score 0. -/
def scan_dir (readOK : Bool) (entries : DirentList) (depth max_depth : Nat)
    (searchterm_lower : List Char) : Forest × Nat :=
  if max_depth ≤ depth then (.nil, 0)
  else if readOK then scanEntries entries depth max_depth searchterm_lower
  else (.nil, 0)

/-- Faithfulness of the inlining in `scanEntries`: processing a directory
entry first runs the recursive `scan_dir` call at `depth + 1` exactly as in
`main.rs` lines 33–34, then scores and conditionally includes the entry
(lines 35–46). -/
theorem scanEntries_cons_dir (name : List Char) (readOK : Bool)
    (sub rest : DirentList) (depth max_depth : Nat) (t : List Char) :
    scanEntries (.cons (.dir name readOK sub) rest) depth max_depth t =
      (let child := scan_dir readOK sub (depth + 1) max_depth t
       let found := matchesName name t
       let score_here := if found then 1 else 0
       let restR := scanEntries rest depth max_depth t
       (if found || decide (0 < child.2) then .cons (.node name child.1) restR.1
        else restR.1,
        score_here + child.2 + restR.2)) := rfl

/-- Rust `build_tree_dict` (`main.rs` lines 57–68): scan the root at depth 0;
score 0 means no match anywhere, otherwise wrap the pruned children in a
root node named by the literal input path string.  `rootOK`/`rootEntries`
describe what `fs::read_dir` does on the root path. -/
def build_tree_dict (dirpath searchterm_lower : List Char) (max_depth : Nat)
    (rootOK : Bool) (rootEntries : DirentList) : Option Tree :=
  let r := scan_dir rootOK rootEntries 0 max_depth searchterm_lower
  if r.2 = 0 then none
  else some (.node dirpath r.1)

/-! ## Tree renderer

Output is modelled as the flat character stream written to stdout; every
`println!` appends its text followed by `'\n'`.  A panic inside
`highlight_substring` propagates as `none`. -/

/-- Connector for the last sibling (`main.rs` line 94). -/
def lastConnector : List Char := "└── ".toList

/-- Connector for a non-last sibling (`main.rs` line 94). -/
def teeConnector : List Char := "├── ".toList

/-- Indentation appended below a last sibling (`main.rs` line 98). -/
def spacePad : List Char := "    ".toList

/-- Indentation appended below a non-last sibling (`main.rs` line 100). -/
def barPad : List Char := "│   ".toList

/-- Text printed by the summary `println!("\n{} {}", dir_count, ...)`
(`main.rs` lines 119–123): a blank line, then the count and the singular or
plural noun, then the newline of the `println!` itself. -/
def footerLines (dir_count : Nat) : List Char :=
  '\n' :: (Nat.repr dir_count).toList ++
    ' ' :: (if dir_count = 1 then "directory".toList else "directories".toList) ++ ['\n']

mutual
/-- Rust `print_tree` (`main.rs` lines 88–126): render the children of `tree`
(the node itself is never printed by this function), return the stream and
the number of matching directories; when `count` is false append the summary
footer. -/
def print_tree (tree : Tree) (searchterm_lower pre : List Char)
    (skip_first count : Bool) : Option (List Char × Nat) :=
  match tree with
  | .node _ cs =>
    match printChildren cs searchterm_lower pre skip_first with
    | none => none
    | some r => if count then some r else some (r.1 ++ footerLines r.2, r.2)

/-- The `for (i, child) in tree.children.iter().enumerate()` loop of
`print_tree` (`main.rs` lines 92–116), processing the remaining siblings:
`is_last` is `i == num_children - 1`, i.e. no sibling remains after this one.
Each child contributes its printed line (unless `skip_first`), the stream of
its own recursive rendering — invoked with `skip_first = false` and
`count = true` (line 115) — and its match counts. -/
def printChildren (cs : Forest) (searchterm_lower pre : List Char)
    (skip_first : Bool) : Option (List Char × Nat) :=
  match cs with
  | .nil => some ([], 0)
  | .cons (.node child_name ccs) rest =>
    let is_last := rest.isNil
    let branch := if is_last then lastConnector else teeConnector
    let nextPre :=
      if skip_first then pre
      else if is_last then pre ++ spacePad
      else pre ++ barPad
    let lineR : Option (List Char × Nat) :=
      if skip_first then some ([], 0)
      else if matchesName child_name searchterm_lower then
        match highlight_substring child_name searchterm_lower with
        | some display => some (pre ++ branch ++ display ++ ['\n'], 1)
        | none => none
      else some (pre ++ branch ++ child_name ++ ['\n'], 0)
    match lineR with
    | none => none
    | some lr =>
      let childPre := if skip_first then pre else nextPre
      match print_tree (.node child_name ccs) searchterm_lower childPre false true with
      | none => none
      | some sub =>
        match printChildren rest searchterm_lower pre skip_first with
        | none => none
        | some rr => some (lr.1 ++ sub.1 ++ rr.1, lr.2 + sub.2 + rr.2)
end

/-! ## Argument handling and `main` -/

/-- Modelled from Rust std `usize::from_str` as used by `str::parse::<usize>()`
(`main.rs` line 167): an optional leading `'+'` followed by at least one ASCII
digit, rejecting anything else (including a `'-'` sign and any whitespace) and
rejecting overflow past the 64-bit `usize` range. -/
def rustParseUsize (s : List Char) : Option Nat :=
  let digits := match s with
    | '+' :: rest => rest
    | _ => s
  if digits.isEmpty then none
  else if digits.all (fun c => '0' ≤ c && c ≤ '9') then
    let v := digits.foldl (fun a c => a * 10 + (c.toNat - 48)) 0
    if v < 2 ^ 64 then some v else none
  else none

/-- Depth-option handling of `main` (`main.rs` lines 164–168):
`matches.value_of("depth").unwrap_or("3").parse().unwrap_or(3)`, where
`depthArg = none` models an omitted `-d`/`--depth` option (clap then supplies
the declared `default_value("3")`). -/
def parseDepth (depthArg : Option (List Char)) : Nat :=
  (rustParseUsize (depthArg.getD "3".toList)).getD 3

/-- Message printed when `build_tree_dict` returns `None`
(`main.rs` line 178). -/
def noMatchMsg : List Char := "No directories match the search term.\n".toList

/-- The scanning-and-printing path of `main` (`main.rs` lines 163–179), for a
non-empty search term (an absent or empty search term takes the early-return
branch at lines 157–161 that only prints the clap-generated help text and
touches neither the filesystem nor any function modelled here): resolve the
depth option, lowercase the search term, build the filtered tree, and either
print the root path line followed by the rendered tree — the top-level
`print_tree` call passes `skip_first = false` and `count = false`
(line 176) — or print the no-match message.  Returns the whole stdout stream,
`none` when the process panics. -/
def xtreeRun (search directory : List Char) (depthArg : Option (List Char))
    (rootOK : Bool) (rootEntries : DirentList) : Option (List Char) :=
  let depth := parseDepth depthArg
  let search_lower := rustToLowercase search
  match build_tree_dict directory search_lower depth rootOK rootEntries with
  | some tree =>
    match print_tree tree search_lower [] false false with
    | some r => some (tree.nameOf ++ '\n' :: r.1)
    | none => none
  | none => some noMatchMsg

/-! ## Spec-side definitions

These follow the wording of the specification (not the code), to be compared
with the code-derived functions above. -/

/-- Spec-side, from the words of claim C1: does some directory entry
reachable from this listing match the search term?  The listing belongs to a
directory being scanned at depth `d`; descending into an entry's own listing
is possible only below the cutoff (`d + 1 < max_depth` — "directories at
depth >= max_depth are never traversed and contribute no matches") and only
when that listing is readable. -/
def specDescMatch : DirentList → Nat → Nat → List Char → Bool
  | .nil, _, _, _ => false
  | .cons (.dir n ok sub) rest, d, m, t =>
    (matchesName n t || (decide (d + 1 < m) && ok && specDescMatch sub (d + 1) m t)) ||
      specDescMatch rest d m t
  | .cons _ rest, d, m, t => specDescMatch rest d m t

/-- Spec-side, from the words of claim C1: the pruned output forest keeps a
directory entry as a node if and only if its own name matches or some
descendant within the depth bound does, and a kept node's children are the
pruned forest of its own listing (empty at the cutoff or when unreadable). -/
def specPrune : DirentList → Nat → Nat → List Char → Forest
  | .nil, _, _, _ => .nil
  | .cons (.dir n ok sub) rest, d, m, t =>
    let subKept := if decide (d + 1 < m) && ok then specPrune sub (d + 1) m t else .nil
    if matchesName n t || (decide (d + 1 < m) && ok && specDescMatch sub (d + 1) m t) then
      .cons (.node n subKept) (specPrune rest d m t)
    else specPrune rest d m t
  | .cons _ rest, d, m, t => specPrune rest d m t

/-- Spec-side, from the words of claim C4: the names of all directory entries
the scan successfully enumerates within the depth bound, pruning nothing. -/
def collectNames : DirentList → Nat → Nat → List (List Char)
  | .nil, _, _ => []
  | .cons (.dir n ok sub) rest, d, m =>
    n :: ((if decide (d + 1 < m) && ok then collectNames sub (d + 1) m else []) ++
      collectNames rest d m)
  | .cons _ rest, d, m => collectNames rest d m

/-- Spec-side, from the words of claim C2: the number of nodes of a forest
whose own name matches the search term (nodes kept only for a matching
descendant are not counted). -/
def countMatchesF : Forest → List Char → Nat
  | .nil, _ => 0
  | .cons (.node n cs) rest, t =>
    (if matchesName n t then 1 else 0) + countMatchesF cs t + countMatchesF rest t

/-! ## Scores and pruning (claims C1, C4, C10) -/

/-- The score computed by the enumeration loop is positive exactly when some
enumerated entry matches directly or through a descendant within the depth
bound. -/
theorem scanEntries_score_pos :
    ∀ (es : DirentList) (d m : Nat) (t : List Char),
      0 < (scanEntries es d m t).2 ↔ specDescMatch es d m t = true
  | .nil, d, m, t => by simp [scanEntries, specDescMatch]
  | .cons (.dir n ok sub) rest, d, m, t => by
    have ih1 := scanEntries_score_pos sub (d + 1) m t
    have ih2 := scanEntries_score_pos rest d m t
    simp only [scanEntries, specDescMatch, Bool.or_eq_true, Bool.and_eq_true,
      decide_eq_true_eq]
    by_cases hm : m ≤ d + 1
    · have hm' : ¬ d + 1 < m := by omega
      by_cases hf : matchesName n t = true <;>
        (simp [hf, hm, hm', ← ih1, ← ih2]; try omega)
    · have hm' : d + 1 < m := by omega
      cases ok with
      | false =>
        by_cases hf : matchesName n t = true <;>
          (simp [hf, hm, hm', ← ih1, ← ih2]; try omega)
      | true =>
        by_cases hf : matchesName n t = true <;>
          (simp [hf, hm, hm', ← ih1, ← ih2]; try omega)
  | .cons (.nondir n) rest, d, m, t => by
    have ih2 := scanEntries_score_pos rest d m t
    simpa [scanEntries, specDescMatch] using ih2
  | .cons .errEntry rest, d, m, t => by
    have ih2 := scanEntries_score_pos rest d m t
    simpa [scanEntries, specDescMatch] using ih2

/-- The pruned forest built by the enumeration loop is exactly the spec-side
pruning. -/
theorem scanEntries_children_eq :
    ∀ (es : DirentList) (d m : Nat) (t : List Char),
      (scanEntries es d m t).1 = specPrune es d m t
  | .nil, _, _, _ => rfl
  | .cons (.dir n ok sub) rest, d, m, t => by
    have ih1 := scanEntries_children_eq sub (d + 1) m t
    have ih2 := scanEntries_children_eq rest d m t
    have hsc := scanEntries_score_pos sub (d + 1) m t
    simp only [scanEntries, specPrune]
    by_cases hm : m ≤ d + 1
    · have hm' : ¬ d + 1 < m := by omega
      simp [hm, hm', ih2]
    · have hm' : d + 1 < m := by omega
      cases ok with
      | false => simp [hm, hm', ih2]
      | true => simp [hm, hm', ih1, ih2, ← hsc]
  | .cons (.nondir n) rest, d, m, t => by
    have ih2 := scanEntries_children_eq rest d m t
    simpa [scanEntries, specPrune] using ih2
  | .cons .errEntry rest, d, m, t => by
    have ih2 := scanEntries_children_eq rest d m t
    simpa [scanEntries, specPrune] using ih2

/-- C1: for every filesystem tree, search term and `max_depth`, a directory
entry appears as a node in the pruned output of `scan_dir` if and only if its
own name case-insensitively contains the search term or some descendant within
the depth bound does — the output forest is exactly the spec-side pruning
`specPrune`, which keeps precisely those entries — and directories at depth
`≥ max_depth` are never traversed and contribute no matches (the scan output
is empty at the cutoff, and `specPrune`/`specDescMatch` never look below it). -/
theorem scan_dir_children_iff_spec (readOK : Bool) (entries : DirentList)
    (d m : Nat) (t : List Char) :
    (scan_dir readOK entries d m t).1 =
      if decide (d < m) && readOK then specPrune entries d m t else .nil := by
  unfold scan_dir
  by_cases hm : m ≤ d
  · have : ¬ d < m := by omega
    simp [hm, this]
  · have hm' : d < m := by omega
    cases readOK <;> simp [hm, hm', scanEntries_children_eq]

/-- The score computed by the enumeration loop counts the matching names among
all enumerated entries, pruned or not. -/
theorem scanEntries_score_eq_count :
    ∀ (es : DirentList) (d m : Nat) (t : List Char),
      (scanEntries es d m t).2 =
        (collectNames es d m).countP (fun n => matchesName n t)
  | .nil, _, _, _ => rfl
  | .cons (.dir n ok sub) rest, d, m, t => by
    have ih1 := scanEntries_score_eq_count sub (d + 1) m t
    have ih2 := scanEntries_score_eq_count rest d m t
    simp only [scanEntries, collectNames, List.countP_cons, List.countP_append]
    by_cases hm : m ≤ d + 1
    · have hm' : ¬ d + 1 < m := by omega
      by_cases hf : matchesName n t = true <;> simp [hf, hm, hm', ih2] <;> omega
    · have hm' : d + 1 < m := by omega
      cases ok with
      | false =>
        by_cases hf : matchesName n t = true <;> simp [hf, hm, hm', ih2] <;> omega
      | true =>
        by_cases hf : matchesName n t = true <;>
          simp [hf, hm, hm', ih1, ih2] <;> omega
  | .cons (.nondir n) rest, d, m, t => by
    have ih2 := scanEntries_score_eq_count rest d m t
    simpa [scanEntries, collectNames] using ih2
  | .cons .errEntry rest, d, m, t => by
    have ih2 := scanEntries_score_eq_count rest d m t
    simpa [scanEntries, collectNames] using ih2

/-- C4: the score returned by `scan_dir` equals the number of matching
directory names among all successfully enumerated entries of the subtree
within the depth bound — entries excluded from the returned children list
included (`collectNames` prunes nothing). -/
theorem scan_dir_score_counts_matches (readOK : Bool) (entries : DirentList)
    (d m : Nat) (t : List Char) :
    (scan_dir readOK entries d m t).2 =
      (if decide (d < m) && readOK then collectNames entries d m else []).countP
        (fun n => matchesName n t) := by
  unfold scan_dir
  by_cases hm : m ≤ d
  · have : ¬ d < m := by omega
    simp [hm, this]
  · have hm' : d < m := by omega
    cases readOK <;> simp [hm, hm', scanEntries_score_eq_count]

/-- Spec-side, from the words of claim C10: every node of the forest either
matches by name or has at least one child, recursively. -/
def nodesOK : Forest → List Char → Bool
  | .nil, _ => true
  | .cons (.node n cs) rest, t =>
    (matchesName n t || !cs.isNil) && nodesOK cs t && nodesOK rest t

/-- The enumeration loop yields an empty forest exactly when it yields
score 0. -/
theorem scanEntries_nil_iff_score_zero :
    ∀ (es : DirentList) (d m : Nat) (t : List Char),
      (scanEntries es d m t).1 = .nil ↔ (scanEntries es d m t).2 = 0
  | .nil, _, _, _ => by simp [scanEntries]
  | .cons (.dir n ok sub) rest, d, m, t => by
    have ih2 := scanEntries_nil_iff_score_zero rest d m t
    simp only [scanEntries]
    by_cases hf : matchesName n t = true
    · simp [hf]
    · by_cases hc : 0 < (if m ≤ d + 1 then ((Forest.nil : Forest), 0)
        else if ok then scanEntries sub (d + 1) m t else ((Forest.nil : Forest), 0)).2
      · simp [hf, hc]
        omega
      · simp [hf, hc, ih2]
        omega
  | .cons (.nondir n) rest, d, m, t => by
    simpa [scanEntries] using scanEntries_nil_iff_score_zero rest d m t
  | .cons .errEntry rest, d, m, t => by
    simpa [scanEntries] using scanEntries_nil_iff_score_zero rest d m t

/-- Every node the enumeration loop keeps either matches by name or has at
least one child. -/
theorem scanEntries_nodesOK :
    ∀ (es : DirentList) (d m : Nat) (t : List Char),
      nodesOK (scanEntries es d m t).1 t = true
  | .nil, _, _, _ => rfl
  | .cons (.dir n ok sub) rest, d, m, t => by
    have ih2 := scanEntries_nodesOK rest d m t
    simp only [scanEntries]
    by_cases hm : m ≤ d + 1
    · by_cases hf : matchesName n t = true <;>
        simp [hm, hf, nodesOK, Forest.isNil, ih2]
    · cases ok with
      | false =>
        by_cases hf : matchesName n t = true <;>
          simp [hm, hf, nodesOK, Forest.isNil, ih2]
      | true =>
        have ih1 := scanEntries_nodesOK sub (d + 1) m t
        have hni := scanEntries_nil_iff_score_zero sub (d + 1) m t
        by_cases hf : matchesName n t = true
        · simp [hm, hf, nodesOK, ih1, ih2]
        · by_cases hc : 0 < (scanEntries sub (d + 1) m t).2
          · have hfalse : ((scanEntries sub (d + 1) m t).1).isNil = false := by
              cases hx : (scanEntries sub (d + 1) m t).1 with
              | nil =>
                exfalso
                have := hni.mp hx
                omega
              | cons a b => rfl
            simp [hm, hf, hc, nodesOK, ih1, ih2, hfalse]
          · simp [hm, hf, hc, ih2]
  | .cons (.nondir n) rest, d, m, t => by
    simpa [scanEntries] using scanEntries_nodesOK rest d m t
  | .cons .errEntry rest, d, m, t => by
    simpa [scanEntries] using scanEntries_nodesOK rest d m t

/-- C10: `scan_dir` returns a non-empty children list iff it returns a score
strictly greater than 0; consequently a tree returned by `build_tree_dict`
always has at least one child, and every node of the pruned output that does
not itself match has at least one child. -/
theorem scan_nonempty_iff_score_pos :
    (∀ (readOK : Bool) (es : DirentList) (d m : Nat) (t : List Char),
      (scan_dir readOK es d m t).1 ≠ .nil ↔ 0 < (scan_dir readOK es d m t).2) ∧
    (∀ (dirpath t : List Char) (m : Nat) (readOK : Bool) (es : DirentList)
      (tr : Tree), build_tree_dict dirpath t m readOK es = some tr →
        tr.childrenOf ≠ .nil) ∧
    (∀ (readOK : Bool) (es : DirentList) (d m : Nat) (t : List Char),
      nodesOK (scan_dir readOK es d m t).1 t = true) := by
  have hbase : ∀ (readOK : Bool) (es : DirentList) (d m : Nat) (t : List Char),
      (scan_dir readOK es d m t).1 = .nil ↔ (scan_dir readOK es d m t).2 = 0 := by
    intro readOK es d m t
    unfold scan_dir
    by_cases hm : m ≤ d
    · simp [hm]
    · cases readOK <;> simp [hm, scanEntries_nil_iff_score_zero]
  refine ⟨?_, ?_, ?_⟩
  · intro readOK es d m t
    have h := hbase readOK es d m t
    constructor
    · intro hne
      rcases Nat.eq_zero_or_pos (scan_dir readOK es d m t).2 with hz | hp
      · exact absurd (h.mpr hz) hne
      · exact hp
    · intro hp hnil
      have := h.mp hnil
      omega
  · intro dirpath t m readOK es tr htr
    unfold build_tree_dict at htr
    by_cases hz : (scan_dir readOK es 0 m t).2 = 0
    · simp [hz] at htr
    · simp [hz] at htr
      subst htr
      simp only [Tree.childrenOf]
      intro hnil
      exact hz ((hbase readOK es 0 m t).mp hnil)
  · intro readOK es d m t
    unfold scan_dir
    by_cases hm : m ≤ d
    · simp [hm, nodesOK]
    · cases readOK <;> simp [hm, nodesOK, scanEntries_nodesOK]

/-- Witness for C10 at a concrete input: the filesystem
`[dir "a" [dir "ab" []]]` searched for `"b"` at depth bound 3 has a positive
score and non-empty children, the built tree has a child, and the kept
non-matching node `"a"` has the matching child `"ab"`. -/
theorem scan_nonempty_iff_score_pos_witness :
    (scan_dir true (toDL [.dir "a".toList true (toDL [.dir "ab".toList true .nil])])
        0 3 "b".toList).1 ≠ .nil ∧
    (Tree.node "/r".toList
        (.cons (.node "a".toList (.cons (.node "ab".toList .nil) .nil)) .nil)).childrenOf
      ≠ .nil := by
  constructor
  · exact (scan_nonempty_iff_score_pos.1 true _ 0 3 "b".toList).mpr (by decide)
  · exact scan_nonempty_iff_score_pos.2.1 "/r".toList "b".toList 3 true
      (toDL [.dir "a".toList true (toDL [.dir "ab".toList true .nil])])
      (Tree.node "/r".toList
        (.cons (.node "a".toList (.cons (.node "ab".toList .nil) .nil)) .nil)) rfl

/-- C3: `build_tree_dict` returns `none` exactly when the depth-0 scan yields
score 0 — in particular it always returns `none` when `max_depth = 0`,
whatever the filesystem holds — and otherwise returns a root node whose name
is the literal input path string with the scan's pruned children. -/
theorem build_tree_dict_shape :
    (∀ (dirpath t : List Char) (readOK : Bool) (es : DirentList),
      build_tree_dict dirpath t 0 readOK es = none) ∧
    (∀ (dirpath t : List Char) (m : Nat) (readOK : Bool) (es : DirentList),
      build_tree_dict dirpath t m readOK es = none ↔
        (scan_dir readOK es 0 m t).2 = 0) ∧
    (∀ (dirpath t : List Char) (m : Nat) (readOK : Bool) (es : DirentList),
      (scan_dir readOK es 0 m t).2 ≠ 0 →
        build_tree_dict dirpath t m readOK es =
          some (.node dirpath (scan_dir readOK es 0 m t).1)) := by
  refine ⟨?_, ?_, ?_⟩
  · intro dirpath t readOK es
    simp [build_tree_dict, scan_dir]
  · intro dirpath t m readOK es
    unfold build_tree_dict
    by_cases hz : (scan_dir readOK es 0 m t).2 = 0 <;> simp [hz]
  · intro dirpath t m readOK es hz
    simp [build_tree_dict, hz]

/-- Witness for C3 at concrete inputs: `max_depth = 0` yields `none` even on a
matching filesystem, and with `max_depth = 2` the same filesystem yields a
root named by the literal path with the pruned child. -/
theorem build_tree_dict_shape_witness :
    build_tree_dict "/r".toList "b".toList 0 true
        (toDL [.dir "b".toList true .nil]) = none ∧
    build_tree_dict "/r".toList "b".toList 2 true
        (toDL [.dir "b".toList true .nil]) =
      some (.node "/r".toList (.cons (.node "b".toList .nil) .nil)) := by
  constructor
  · exact build_tree_dict_shape.1 "/r".toList "b".toList true
      (toDL [.dir "b".toList true .nil])
  · exact build_tree_dict_shape.2.2 "/r".toList "b".toList 2 true
      (toDL [.dir "b".toList true .nil]) (by decide)

/-! ## Renderer count and footer (claim C2) -/

/-- A recursive `print_tree` call (`count = true`, `main.rs` line 115) never
prints the footer: it returns exactly what the sibling loop over its children
returns. -/
theorem print_tree_count_true (n : List Char) (cs : Forest) (t p : List Char)
    (sk : Bool) :
    print_tree (.node n cs) t p sk true = printChildren cs t p sk := by
  unfold print_tree
  cases h : printChildren cs t p sk <;> simp

/-- The match count returned by the sibling loop (with printing enabled)
counts exactly the rendered nodes whose own name matches. -/
theorem printChildren_count :
    ∀ (cs : Forest) (t p o : List Char) (c : Nat),
      printChildren cs t p false = some (o, c) → c = countMatchesF cs t
  | .nil, t, p, o, c => by
    intro h
    simp only [printChildren, Option.some.injEq, Prod.mk.injEq] at h
    simp [countMatchesF, ← h.2]
  | .cons (.node n ccs) rest, t, p, o, c => by
    intro h
    simp only [printChildren, print_tree_count_true, Bool.false_eq_true,
      if_false] at h
    by_cases hf : matchesName n t = true
    · rw [if_pos hf] at h
      cases hh : highlight_substring n t with
      | none => rw [hh] at h; exact absurd h (by simp)
      | some disp =>
        rw [hh] at h
        cases hs : printChildren ccs t
            (if rest.isNil = true then p ++ spacePad else p ++ barPad) false with
        | none => rw [hs] at h; exact absurd h (by simp)
        | some sub =>
          rw [hs] at h
          cases hr : printChildren rest t p false with
          | none => rw [hr] at h; exact absurd h (by simp)
          | some rr =>
            rw [hr] at h
            simp only [Option.some.injEq, Prod.mk.injEq] at h
            have ih1 := printChildren_count ccs t _ sub.1 sub.2 (by rw [hs])
            have ih2 := printChildren_count rest t p rr.1 rr.2 (by rw [hr])
            simp [countMatchesF, hf, ← h.2, ih1, ih2]
    · rw [if_neg hf] at h
      cases hs : printChildren ccs t
          (if rest.isNil = true then p ++ spacePad else p ++ barPad) false with
      | none => rw [hs] at h; exact absurd h (by simp)
      | some sub =>
        rw [hs] at h
        cases hr : printChildren rest t p false with
        | none => rw [hr] at h; exact absurd h (by simp)
        | some rr =>
          rw [hr] at h
          simp only [Option.some.injEq, Prod.mk.injEq] at h
          have ih1 := printChildren_count ccs t _ sub.1 sub.2 (by rw [hs])
          have ih2 := printChildren_count rest t p rr.1 rr.2 (by rw [hr])
          simp [countMatchesF, hf, ← h.2, ih1, ih2]

/-- C2: when the top-level `print_tree` call (`count = false`) returns, its
count equals the number of nodes of the rendered tree — the root excluded,
since `print_tree` only ever prints children — whose own name matches the
search term (nodes kept for a matching descendant only are not counted), and
the output is the body followed by exactly one footer: a blank line, then
`<count> directory` when the count is 1 and `<count> directories` otherwise;
recursive calls (`count = true`) never print a footer. -/
theorem print_tree_footer_and_count :
    (∀ (tr : Tree) (t p out : List Char) (c : Nat),
      print_tree tr t p false false = some (out, c) →
        c = countMatchesF tr.childrenOf t ∧
        ∃ body, printChildren tr.childrenOf t p false = some (body, c) ∧
          out = body ++
            ('\n' :: ((Nat.repr c).toList ++
              ' ' :: (if c = 1 then "directory".toList else "directories".toList) ++
                ['\n']))) ∧
    (∀ (tr : Tree) (t p : List Char),
      print_tree tr t p false true = printChildren tr.childrenOf t p false) := by
  constructor
  · intro tr t p out c h
    cases tr with
    | node n cs =>
      unfold print_tree at h
      cases hb : printChildren cs t p false with
      | none => rw [hb] at h; exact absurd h (by simp)
      | some r =>
        rw [hb] at h
        simp only [Bool.false_eq_true, if_false, Option.some.injEq,
          Prod.mk.injEq] at h
        have hc : c = r.2 := h.2.symm
        subst hc
        refine ⟨printChildren_count cs t p r.1 r.2 (by rw [hb]), r.1, ?_, ?_⟩
        · exact hb
        · rw [← h.1]
          rfl
  · intro tr t p
    cases tr with
    | node n cs => exact print_tree_count_true n cs t p false

/-- Witness for C2 at a concrete input: rendering the tree with single
matching child `"b"` yields count 1 and the stream
`"└── <red>b</red>\n"` followed by the blank line and `"1 directory"`. -/
theorem print_tree_footer_and_count_witness :
    (1 : Nat) = countMatchesF
        (Tree.node ".".toList (.cons (.node "b".toList .nil) .nil)).childrenOf
        "b".toList ∧
    ∃ body, printChildren
        (Tree.node ".".toList (.cons (.node "b".toList .nil) .nil)).childrenOf
        "b".toList [] false = some (body, 1) ∧
      "└── \x1b[91mb\x1b[0m\n\n1 directory\n".toList = body ++
        ('\n' :: ((Nat.repr 1).toList ++
          ' ' :: (if 1 = 1 then "directory".toList else "directories".toList) ++
            ['\n'])) :=
  print_tree_footer_and_count.1
    (Tree.node ".".toList (.cons (.node "b".toList .nil) .nil))
    "b".toList [] "└── \x1b[91mb\x1b[0m\n\n1 directory\n".toList 1 rfl

/-! ## Suppression of levels in the renderer (claim C9) -/

/-- Spec-side, from the words of amended claim C9: rendering with no
suppression anywhere — one line per node at every level, connectors and
prefixes as in the renderer. -/
def renderAll : Forest → List Char → List Char → Option (List Char × Nat)
  | .nil, _, _ => some ([], 0)
  | .cons (.node n ccs) rest, t, p =>
    let is_last := rest.isNil
    let branch := if is_last then lastConnector else teeConnector
    let lineR : Option (List Char × Nat) :=
      if matchesName n t then
        match highlight_substring n t with
        | some display => some (p ++ branch ++ display ++ ['\n'], 1)
        | none => none
      else some (p ++ branch ++ n ++ ['\n'], 0)
    match lineR with
    | none => none
    | some lr =>
      match renderAll ccs t (if is_last then p ++ spacePad else p ++ barPad) with
      | none => none
      | some sub =>
        match renderAll rest t p with
        | none => none
        | some rr => some (lr.1 ++ sub.1 ++ rr.1, lr.2 + sub.2 + rr.2)

/-- The sibling loop entered with `skip_first = false` — which is how every
call of the program runs, the top-level one included — renders every level:
it coincides with the suppression-free renderer. -/
theorem printChildren_eq_renderAll :
    ∀ (cs : Forest) (t p : List Char),
      printChildren cs t p false = renderAll cs t p
  | .nil, _, _ => rfl
  | .cons (.node n ccs) rest, t, p => by
    have ih1 := printChildren_eq_renderAll ccs t
      (if rest.isNil then p ++ spacePad else p ++ barPad)
    have ih2 := printChildren_eq_renderAll rest t p
    simp only [printChildren, renderAll, print_tree_count_true,
      Bool.false_eq_true, if_false]
    rw [ih1, ih2]

/-- C9 (amended): in the renderer every recursive call into a child passes
`skip_first = false` and so does the top-level invocation made by `main` —
no invocation suppresses the printing of its level.  Concretely: the sibling
loop with `skip_first = false` equals the suppression-free renderer, and the
whole program output consists of the root path line, every level of the tree
rendered through that suppression-free renderer, and the footer. -/
theorem xtree_never_suppresses :
    (∀ (cs : Forest) (t p : List Char),
      printChildren cs t p false = renderAll cs t p) ∧
    (∀ (search directory : List Char) (depthArg : Option (List Char))
      (rootOK : Bool) (rootEntries : DirentList),
      xtreeRun search directory depthArg rootOK rootEntries =
        match build_tree_dict directory (rustToLowercase search)
            (parseDepth depthArg) rootOK rootEntries with
        | none => some noMatchMsg
        | some tr =>
          match renderAll tr.childrenOf (rustToLowercase search) [] with
          | none => none
          | some r =>
            some (tr.nameOf ++ '\n' :: (r.1 ++ footerLines r.2))) := by
  have htop : ∀ (tr : Tree) (t p : List Char),
      print_tree tr t p false false =
        match renderAll tr.childrenOf t p with
        | none => none
        | some r => some (r.1 ++ footerLines r.2, r.2) := by
    intro tr t p
    cases tr with
    | node n cs =>
      unfold print_tree
      rw [show (Tree.node n cs).childrenOf = cs from rfl,
        printChildren_eq_renderAll cs t p]
      cases renderAll cs t p <;> simp
  refine ⟨printChildren_eq_renderAll, ?_⟩
  intro search directory depthArg rootOK rootEntries
  show (match build_tree_dict directory (rustToLowercase search)
      (parseDepth depthArg) rootOK rootEntries with
    | some tree =>
      match print_tree tree (rustToLowercase search) [] false false with
      | some r => some (tree.nameOf ++ '\n' :: r.1)
      | none => none
    | none => some noMatchMsg) = _
  cases hb : build_tree_dict directory (rustToLowercase search)
      (parseDepth depthArg) rootOK rootEntries with
  | none => rfl
  | some tr =>
    simp only
    rw [htop]
    cases renderAll tr.childrenOf (rustToLowercase search) [] <;> simp

/-- Counterexample to C9 as stated: the top-level invocation for the root
does not suppress the current level.  On the filesystem `[dir "b" []]` with
search term `"b"`, the program prints the first-level line `└── b`
(highlighted) and counts 1, while a top-level call with
`skip_first = true` — what the claim describes — would print no node line at
all and count 0; the two calls differ. -/
theorem xtree_suppression_claim_cex :
    xtreeRun "b".toList ".".toList none true (toDL [.dir "b".toList true .nil]) =
      some ".\n└── \x1b[91mb\x1b[0m\n\n1 directory\n".toList ∧
    print_tree (.node ".".toList (.cons (.node "b".toList .nil) .nil))
        "b".toList [] true false = some ("\n0 directories\n".toList, 0) ∧
    print_tree (.node ".".toList (.cons (.node "b".toList .nil) .nil))
        "b".toList [] false false ≠
      print_tree (.node ".".toList (.cons (.node "b".toList .nil) .nil))
        "b".toList [] true false := by
  refine ⟨by decide, by decide, by decide⟩

/-! ## Silent absorption of filesystem failures (claim C7) -/

/-- Scanning a directory whose `fs::read_dir` fails yields no children and
score 0, whatever its (unobservable) entries are. -/
theorem scan_dir_unreadable (es : DirentList) (d m : Nat) (t : List Char) :
    scan_dir false es d m t = (.nil, 0) := by
  unfold scan_dir
  by_cases hm : m ≤ d <;> simp [hm]

/-- C7: every filesystem read failure is silently absorbed — the recursive
scan of an unreadable directory yields no children and score 0; an entry whose
enumeration or `file_type()` fails is skipped, leaving the processing of its
siblings untouched; an unreadable subdirectory entry is processed exactly as
if it were empty; a run with an unreadable root prints only the generic
no-match message; and so does any run whose depth-0 scan scores 0, making an
unreadable or nonexistent root indistinguishable from a readable tree without
matches. -/
theorem xtree_absorbs_read_failures :
    (∀ (es : DirentList) (d m : Nat) (t : List Char),
      scan_dir false es d m t = (.nil, 0)) ∧
    (∀ (rest : DirentList) (d m : Nat) (t : List Char),
      scanEntries (.cons .errEntry rest) d m t = scanEntries rest d m t) ∧
    (∀ (n : List Char) (sub rest : DirentList) (d m : Nat) (t : List Char),
      scanEntries (.cons (.dir n false sub) rest) d m t =
        scanEntries (.cons (.dir n false .nil) rest) d m t) ∧
    (∀ (search directory : List Char) (depthArg : Option (List Char))
      (es : DirentList),
      xtreeRun search directory depthArg false es = some noMatchMsg) ∧
    (∀ (search directory : List Char) (depthArg : Option (List Char))
      (rootOK : Bool) (es : DirentList),
      (scan_dir rootOK es 0 (parseDepth depthArg) (rustToLowercase search)).2 = 0 →
        xtreeRun search directory depthArg rootOK es = some noMatchMsg) := by
  have hzero : ∀ (search directory : List Char) (depthArg : Option (List Char))
      (rootOK : Bool) (es : DirentList),
      (scan_dir rootOK es 0 (parseDepth depthArg) (rustToLowercase search)).2 = 0 →
        xtreeRun search directory depthArg rootOK es = some noMatchMsg := by
    intro search directory depthArg rootOK es hz
    have hb : build_tree_dict directory (rustToLowercase search)
        (parseDepth depthArg) rootOK es = none := by
      unfold build_tree_dict
      simp [hz]
    show (match build_tree_dict directory (rustToLowercase search)
        (parseDepth depthArg) rootOK es with
      | some tree =>
        match print_tree tree (rustToLowercase search) [] false false with
        | some r => some (tree.nameOf ++ '\n' :: r.1)
        | none => none
      | none => some noMatchMsg) = some noMatchMsg
    rw [hb]
  refine ⟨scan_dir_unreadable, ?_, ?_, ?_, hzero⟩
  · intro rest d m t
    simp [scanEntries]
  · intro n sub rest d m t
    simp only [scanEntries]
    by_cases hm : m ≤ d + 1 <;> simp [hm]
  · intro search directory depthArg es
    exact hzero search directory depthArg false es
      (by rw [scan_dir_unreadable])

/-- Witness for C7 at concrete inputs: a readable root containing only the
non-matching directory `"x"` and an unreadable root produce the same
no-match output when searching for `"b"`. -/
theorem xtree_absorbs_read_failures_witness :
    xtreeRun "b".toList ".".toList none true (toDL [.dir "x".toList true .nil]) =
      some noMatchMsg ∧
    xtreeRun "b".toList ".".toList none false (toDL [.dir "x".toList true .nil]) =
      some noMatchMsg := by
  constructor
  · exact xtree_absorbs_read_failures.2.2.2.2 "b".toList ".".toList none true
      (toDL [.dir "x".toList true .nil]) (by decide)
  · exact xtree_absorbs_read_failures.2.2.2.1 "b".toList ".".toList none
      (toDL [.dir "x".toList true .nil])

/-! ## Depth-option fallback (claim C8) -/

/-- C8: an omitted `-d`/`--depth` option yields depth 3 (clap substitutes the
declared default string `"3"`); a depth string that fails to parse as a
non-negative integer silently yields the default 3; and such a run is
indistinguishable from a run without the option — the fallback is never
surfaced in the output. -/
theorem depth_parse_fallback :
    parseDepth none = 3 ∧
    (∀ s : List Char, rustParseUsize s = none → parseDepth (some s) = 3) ∧
    (∀ (s search directory : List Char) (rootOK : Bool) (es : DirentList),
      rustParseUsize s = none →
        xtreeRun search directory (some s) rootOK es =
          xtreeRun search directory none rootOK es) := by
  refine ⟨by decide, ?_, ?_⟩
  · intro s h
    simp [parseDepth, h]
  · intro s search directory rootOK es h
    have hd : parseDepth (some s) = parseDepth none := by
      simp [parseDepth, h]
      decide
    simp only [xtreeRun]
    rw [hd]

/-- Witness for C8 at a concrete input: the unparsable depth string `"abc"`
falls back to depth 3 and leaves the program output unchanged. -/
theorem depth_parse_fallback_witness :
    parseDepth (some "abc".toList) = 3 ∧
    xtreeRun "b".toList ".".toList (some "abc".toList) true
        (toDL [.dir "b".toList true .nil]) =
      xtreeRun "b".toList ".".toList none true
        (toDL [.dir "b".toList true .nil]) := by
  constructor
  · exact depth_parse_fallback.2.1 "abc".toList (by decide)
  · exact depth_parse_fallback.2.2 "abc".toList "b".toList ".".toList true
      (toDL [.dir "b".toList true .nil]) (by decide)

/-! ## Byte arithmetic of the highlighter (claims C5, C6) -/

/-- Character order coincides with the order of the underlying scalar
values. -/
theorem char_le_iff_toNat {a b : Char} : a ≤ b ↔ a.toNat ≤ b.toNat := by
  rw [Char.le_def, UInt32.le_def, BitVec.le_def]
  exact Iff.rfl

/-- Applying `Char.ofNat` to a scalar value below the surrogate range keeps the
value. -/
theorem toNat_ofNat_lt {n : Nat} (h : n < 0xd800) : (Char.ofNat n).toNat = n := by
  unfold Char.ofNat
  rw [dif_pos (Or.inl h)]
  rfl

/-- ASCII characters occupy one UTF-8 byte. -/
theorem utf8Size_one {c : Char} (h : c.toNat < 128) : c.utf8Size = 1 := by
  have hv : c.val ≤ UInt32.ofNatCore 0x7F (by decide) := by
    rw [UInt32.le_def, BitVec.le_def]
    exact Nat.lt_succ_iff.mp h
  unfold Char.utf8Size
  rw [if_pos hv]

/-- ASCII test on a name, as in amended claims C5 and C6. -/
def allASCII (s : List Char) : Bool :=
  s.all fun c => decide (c.toNat < 128)

/-- Lowercasing an ASCII character yields a single ASCII character. -/
theorem rustCharToLower_ascii {c : Char} (h : c.toNat < 128) :
    ∃ c', rustCharToLower c = [c'] ∧ c'.toNat < 128 := by
  unfold rustCharToLower
  by_cases hAZ : 'A' ≤ c ∧ c ≤ 'Z'
  · refine ⟨Char.ofNat (c.toNat + 32), by rw [if_pos hAZ], ?_⟩
    have h90 : c.toNat ≤ 90 := by
      have hz := char_le_iff_toNat.mp hAZ.2
      simpa using hz
    rw [toNat_ofNat_lt (by omega)]
    omega
  · have hneq : ¬ c = 'ẞ' := by
      intro he
      rw [he] at h
      exact absurd h (by decide)
    rw [if_neg hAZ, if_neg hneq]
    exact ⟨c, rfl, h⟩

/-- Lowercasing an ASCII string is length-preserving and stays ASCII. -/
theorem rustToLowercase_ascii :
    ∀ s : List Char, allASCII s = true →
      allASCII (rustToLowercase s) = true ∧ (rustToLowercase s).length = s.length
  | [], _ => by simp [rustToLowercase, allASCII]
  | c :: rest, h => by
    have hc : c.toNat < 128 := by
      have := h
      simp only [allASCII, List.all_cons, Bool.and_eq_true, decide_eq_true_eq] at this
      exact this.1
    have hrest : allASCII rest = true := by
      have := h
      simp only [allASCII, List.all_cons, Bool.and_eq_true] at this
      exact this.2
    obtain ⟨c', hc', hc'a⟩ := rustCharToLower_ascii hc
    obtain ⟨ih1, ih2⟩ := rustToLowercase_ascii rest hrest
    have hcons : rustToLowercase (c :: rest) = c' :: rustToLowercase rest := by
      simp [rustToLowercase, hc']
    constructor
    · rw [hcons]
      simp only [allASCII, List.all_cons, Bool.and_eq_true, decide_eq_true_eq]
      exact ⟨hc'a, by simpa [allASCII] using ih1⟩
    · rw [hcons]
      simp [ih2]

/-- Membership-closed transfer of the ASCII property. -/
theorem allASCII_sublist {s u : List Char} (hsub : u ⊆ s)
    (h : allASCII s = true) : allASCII u = true := by
  simp only [allASCII, List.all_eq_true] at *
  exact fun c hc => h c (hsub hc)

/-- On ASCII strings, UTF-8 byte length is character count. -/
theorem utf8Len_eq_length :
    ∀ s : List Char, allASCII s = true → utf8Len s = s.length
  | [], _ => rfl
  | c :: rest, h => by
    have h' := h
    simp only [allASCII, List.all_cons, Bool.and_eq_true, decide_eq_true_eq] at h'
    have := utf8Len_eq_length rest (by simpa [allASCII] using h'.2)
    simp [utf8Len, List.sum_cons, utf8Size_one h'.1]
    simp only [utf8Len] at this
    omega

/-- The two halves of a successful byte split reassemble the string. -/
theorem byteSplitAt_append :
    ∀ (s : List Char) (n : Nat) (a b : List Char),
      byteSplitAt s n = some (a, b) → a ++ b = s
  | s, 0, a, b => by
    intro h
    simp only [byteSplitAt, Option.some.injEq, Prod.mk.injEq] at h
    rw [← h.1, ← h.2]
    rfl
  | [], n + 1, a, b => by
    intro h
    simp [byteSplitAt] at h
  | c :: rest, n + 1, a, b => by
    intro h
    simp only [byteSplitAt] at h
    by_cases hc : c.utf8Size ≤ n + 1
    · rw [if_pos hc] at h
      cases hx : byteSplitAt rest (n + 1 - c.utf8Size) with
      | none => rw [hx] at h; simp at h
      | some p =>
        rw [hx] at h
        simp only [Option.map_some', Option.some.injEq, Prod.mk.injEq] at h
        have ih := byteSplitAt_append rest (n + 1 - c.utf8Size) p.1 p.2 (by rw [hx])
        rw [← h.1, ← h.2]
        simp [ih]
    · rw [if_neg hc] at h
      simp at h

/-- On an ASCII string a byte split succeeds at every offset up to the
length and splits at the character of that index. -/
theorem byteSplitAt_ascii :
    ∀ (s : List Char) (n : Nat), allASCII s = true → n ≤ s.length →
      byteSplitAt s n = some (s.take n, s.drop n)
  | s, 0, _, _ => by simp [byteSplitAt]
  | [], n + 1, _, hn => by simp at hn
  | c :: rest, n + 1, h, hn => by
    have h' := h
    simp only [allASCII, List.all_cons, Bool.and_eq_true, decide_eq_true_eq] at h'
    have hsz := utf8Size_one h'.1
    have ih := byteSplitAt_ascii rest n (by simpa [allASCII] using h'.2)
      (by simpa using hn)
    simp only [byteSplitAt, hsz]
    rw [if_pos (by omega)]
    have hsub : n + 1 - 1 = n := by omega
    rw [hsub, ih]
    rfl

/-- A successful `findSub` locates a character index whose preceding UTF-8
length is the returned byte offset and at which the needle is a prefix. -/
theorem findSub_decomp :
    ∀ (hay needle : List Char) (p : Nat), findSub hay needle = some p →
      ∃ i, i ≤ hay.length ∧ p = utf8Len (hay.take i) ∧
        needle.isPrefixOf (hay.drop i) = true
  | [], needle, p => by
    intro h
    unfold findSub at h
    by_cases hpre : needle.isPrefixOf [] = true
    · rw [if_pos hpre] at h
      simp only [Option.some.injEq] at h
      exact ⟨0, by omega, by simp [← h, utf8Len], by simpa using hpre⟩
    · rw [if_neg hpre] at h
      simp at h
  | c :: rest, needle, p => by
    intro h
    unfold findSub at h
    by_cases hpre : needle.isPrefixOf (c :: rest) = true
    · rw [if_pos hpre] at h
      simp only [Option.some.injEq] at h
      exact ⟨0, by omega, by simp [← h, utf8Len], by simpa using hpre⟩
    · rw [if_neg hpre] at h
      dsimp only at h
      cases hx : findSub rest needle with
      | none => rw [hx] at h; simp at h
      | some q =>
        rw [hx] at h
        simp only [Option.map_some', Option.some.injEq] at h
        obtain ⟨i, hi, hq, hp⟩ := findSub_decomp rest needle q hx
        refine ⟨i + 1, by simpa using hi, ?_, by simpa using hp⟩
        simp only [List.take_succ_cons, utf8Len, List.map_cons, List.sum_cons]
        simp only [utf8Len] at hq
        omega

/-- Containment succeeds exactly when find does (`str::contains` and
`str::find` with the same pattern agree). -/
theorem containsSub_iff_findSub :
    ∀ hay needle : List Char,
      containsSub hay needle = true ↔ (findSub hay needle).isSome = true
  | hay, needle => by
    unfold containsSub findSub
    by_cases hpre : needle.isPrefixOf hay = true
    · simp [hpre]
    · cases hay with
      | nil => simp [hpre]
      | cons c rest =>
        have ih := containsSub_iff_findSub rest needle
        simp [hpre, ih]

/-- Unfolding equation of the highlighter with the `let` expanded. -/
theorem highlight_substring_eq (s t : List Char) :
    highlight_substring s t =
      match findSub (rustToLowercase s) t with
      | some pos =>
        match byteSplitAt s pos with
        | some br =>
          match byteSplitAt br.2 (utf8Len t) with
          | some ma => some (br.1 ++ redCode ++ ma.1 ++ resetCode ++ ma.2)
          | none => none
        | none => none
      | none => some s := rfl

/-- On an ASCII name, highlighting never panics: the byte offsets located in
the lowercased name are valid character boundaries of the original name. -/
theorem highlight_ascii_total (s t : List Char) (h : allASCII s = true) :
    ∃ r, highlight_substring s t = some r := by
  obtain ⟨hla, hlen⟩ := rustToLowercase_ascii s h
  rw [highlight_substring_eq]
  cases hf : findSub (rustToLowercase s) t with
  | none => exact ⟨s, rfl⟩
  | some p =>
    obtain ⟨i, hi, hp, hpre⟩ := findSub_decomp _ _ _ hf
    have htake : allASCII ((rustToLowercase s).take i) = true :=
      allASCII_sublist (List.take_subset i _) hla
    have hpi : p = i := by
      rw [hp, utf8Len_eq_length _ htake]
      simp [List.length_take]
      omega
    have hdropa : allASCII ((rustToLowercase s).drop i) = true :=
      allASCII_sublist (List.drop_subset i _) hla
    obtain ⟨t', ht'⟩ : ∃ t', t ++ t' = (rustToLowercase s).drop i :=
      List.isPrefixOf_iff_prefix.mp hpre
    have hps : p ≤ s.length := by
      rw [hlen] at hi
      omega
    have hsplit1 := byteSplitAt_ascii s p h hps
    have hdropsa : allASCII (s.drop p) = true :=
      allASCII_sublist (List.drop_subset p s) h
    have htsub : t ⊆ (rustToLowercase s).drop i := fun x hx => by
      rw [← ht']
      exact List.mem_append_left t' hx
    have hta : allASCII t = true := allASCII_sublist htsub hdropa
    have htlen : t.length ≤ ((rustToLowercase s).drop i).length := by
      rw [← ht']
      simp
    have hbound : utf8Len t ≤ (s.drop p).length := by
      rw [utf8Len_eq_length t hta, List.length_drop, hpi]
      rw [List.length_drop, hlen] at htlen
      omega
    have hsplit2 := byteSplitAt_ascii (s.drop p) (utf8Len t) hdropsa hbound
    refine ⟨(s.take p) ++ redCode ++ ((s.drop p).take (utf8Len t)) ++ resetCode ++
      ((s.drop p).drop (utf8Len t)), ?_⟩
    dsimp only
    rw [hsplit1]
    dsimp only
    rw [hsplit2]

/-- C5 (amended): the lowercased search term is found in the lowercased name
exactly when the name case-insensitively contains it; whenever highlighting
finds the term and returns a rendering — which it does for every ASCII name,
though not for every non-ASCII one, see the counterexample — that rendering
is the original name with the color-start and color-reset escape sequences
spliced around the matched span, so removing the two inserted sequences
restores the original name exactly; and when the term is not found the name
is returned unchanged, without failing. -/
theorem highlight_substring_correct :
    (∀ s t : List Char, containsSub (rustToLowercase s) t = true ↔
      (findSub (rustToLowercase s) t).isSome = true) ∧
    (∀ s t r : List Char, highlight_substring s t = some r →
      (findSub (rustToLowercase s) t).isSome = true →
      ∃ pre mid post, r = pre ++ redCode ++ mid ++ resetCode ++ post ∧
        pre ++ mid ++ post = s) ∧
    (∀ s t : List Char, findSub (rustToLowercase s) t = none →
      highlight_substring s t = some s) := by
  refine ⟨fun s t => containsSub_iff_findSub _ _, ?_, ?_⟩
  · intro s t r hr hsome
    rw [highlight_substring_eq] at hr
    cases hf : findSub (rustToLowercase s) t with
    | none => rw [hf] at hsome; simp at hsome
    | some p =>
      rw [hf] at hr
      dsimp only at hr
      cases h1 : byteSplitAt s p with
      | none => rw [h1] at hr; simp at hr
      | some br =>
        obtain ⟨b1, b2⟩ := br
        rw [h1] at hr
        dsimp only at hr
        cases h2 : byteSplitAt b2 (utf8Len t) with
        | none => rw [h2] at hr; simp at hr
        | some ma =>
          obtain ⟨m1, m2⟩ := ma
          rw [h2] at hr
          simp only [Option.some.injEq] at hr
          refine ⟨b1, m1, m2, hr.symm, ?_⟩
          have e1 := byteSplitAt_append s p b1 b2 h1
          have e2 := byteSplitAt_append b2 (utf8Len t) m1 m2 h2
          rw [← e1, ← e2]
          simp
  · intro s t hf
    rw [highlight_substring_eq, hf]

/-- Counterexample to C5 as stated: the directory name `aẞ` case-insensitively
contains the search term `ß` (Rust lowercases U+1E9E `ẞ`, three UTF-8 bytes,
to U+00DF `ß`, two bytes), yet the highlighter produces no rendering at all —
the matched span `&s[1..3]` ends inside the three-byte character `ẞ` of the
original name and the slicing panics — so no rendering exists whose stripped
form could equal the original name. -/
theorem highlight_nonascii_cex :
    matchesName "aẞ".toList "ß".toList = true ∧
    highlight_substring "aẞ".toList "ß".toList = none :=
  ⟨by decide, by decide⟩

/-- Witness for C5 at concrete inputs: highlighting `aB` for term `b` wraps
`B` in the two escape sequences and splicing them out restores `aB`; the term
`b` is not found in `x`, which is returned unchanged. -/
theorem highlight_substring_correct_witness :
    (∃ pre mid post, "a\x1b[91mB\x1b[0m".toList =
        pre ++ redCode ++ mid ++ resetCode ++ post ∧
      pre ++ mid ++ post = "aB".toList) ∧
    highlight_substring "x".toList "b".toList = some "x".toList := by
  constructor
  · exact highlight_substring_correct.2.1 "aB".toList "b".toList
      "a\x1b[91mB\x1b[0m".toList (by decide) (by decide)
  · exact highlight_substring_correct.2.2 "x".toList "b".toList (by decide)

/-! ## Panic-freedom on ASCII names (claim C6) -/

/-- All node names of a pruned forest are ASCII. -/
def forestASCII : Forest → Bool
  | .nil => true
  | .cons (.node n cs) rest => allASCII n && forestASCII cs && forestASCII rest

/-- All directory-entry names of a filesystem are ASCII. -/
def direntsASCII : DirentList → Bool
  | .nil => true
  | .cons (.dir n _ sub) rest => allASCII n && direntsASCII sub && direntsASCII rest
  | .cons _ rest => direntsASCII rest

/-- Scanning an all-ASCII filesystem yields an all-ASCII pruned forest. -/
theorem scanEntries_ascii :
    ∀ (es : DirentList) (d m : Nat) (t : List Char), direntsASCII es = true →
      forestASCII (scanEntries es d m t).1 = true
  | .nil, _, _, _, _ => rfl
  | .cons (.dir n ok sub) rest, d, m, t, h => by
    have h' := h
    simp only [direntsASCII, Bool.and_eq_true] at h'
    obtain ⟨⟨hn, hsub⟩, hrest⟩ := h'
    have ih2 := scanEntries_ascii rest d m t hrest
    simp only [scanEntries]
    by_cases hm : m ≤ d + 1
    · by_cases hf : matchesName n t = true <;>
        simp [hm, hf, forestASCII, hn, ih2]
    · cases ok with
      | false =>
        by_cases hf : matchesName n t = true <;>
          simp [hm, hf, forestASCII, hn, ih2]
      | true =>
        have ih1 := scanEntries_ascii sub (d + 1) m t hsub
        by_cases hf : matchesName n t = true
        · simp [hm, hf, forestASCII, hn, ih1, ih2]
        · by_cases hc : 0 < (scanEntries sub (d + 1) m t).2
          · simp [hm, hf, hc, forestASCII, hn, ih1, ih2]
          · simp [hm, hf, hc, ih2]
  | .cons (.nondir n) rest, d, m, t, h => by
    simpa [scanEntries] using scanEntries_ascii rest d m t
      (by simpa [direntsASCII] using h)
  | .cons .errEntry rest, d, m, t, h => by
    simpa [scanEntries] using scanEntries_ascii rest d m t
      (by simpa [direntsASCII] using h)

/-- The pruned forest of `scan_dir` on an all-ASCII filesystem is
all-ASCII. -/
theorem scan_dir_ascii (readOK : Bool) (es : DirentList) (d m : Nat)
    (t : List Char) (h : direntsASCII es = true) :
    forestASCII (scan_dir readOK es d m t).1 = true := by
  unfold scan_dir
  by_cases hm : m ≤ d
  · simp [hm, forestASCII]
  · cases readOK <;> simp [hm, forestASCII, scanEntries_ascii es d m t h]

/-- Rendering an all-ASCII forest never panics. -/
theorem printChildren_ascii_total :
    ∀ (cs : Forest) (t p : List Char) (sk : Bool), forestASCII cs = true →
      ∃ r, printChildren cs t p sk = some r
  | .nil, _, _, _, _ => ⟨([], 0), rfl⟩
  | .cons (.node n ccs) rest, t, p, sk, h => by
    have h' := h
    simp only [forestASCII, Bool.and_eq_true] at h'
    obtain ⟨⟨hn, hccs⟩, hrest⟩ := h'
    obtain ⟨s2, hs2⟩ := printChildren_ascii_total rest t p sk hrest
    cases sk with
    | true =>
      obtain ⟨s1, hs1⟩ := printChildren_ascii_total ccs t p false hccs
      simp only [printChildren, print_tree_count_true, if_true, hs1, hs2]
      exact ⟨_, rfl⟩
    | false =>
      obtain ⟨s1, hs1⟩ := printChildren_ascii_total ccs t
        (if rest.isNil = true then p ++ spacePad else p ++ barPad) false hccs
      by_cases hf : matchesName n t = true
      · obtain ⟨disp, hd⟩ := highlight_ascii_total n t hn
        simp only [printChildren, print_tree_count_true, Bool.false_eq_true,
          if_false, hf, if_true, hd, hs1, hs2]
        exact ⟨_, rfl⟩
      · simp only [printChildren, print_tree_count_true, Bool.false_eq_true,
          if_false, hf, hs1, hs2]
        exact ⟨_, rfl⟩

/-- C6 (amended): on ASCII directory names no operation panics — the byte
offsets the highlighter computes are then valid character boundaries of the
original name, every highlight succeeds, and a whole run on an all-ASCII
filesystem always produces output.  (For non-ASCII names this fails: see the
counterexample, where lowercasing shifts byte offsets and the slicing
panics.) -/
theorem xtree_no_panic_on_ascii :
    (∀ s t : List Char, allASCII s = true → ∃ r, highlight_substring s t = some r) ∧
    (∀ (search directory : List Char) (depthArg : Option (List Char))
      (rootOK : Bool) (es : DirentList), direntsASCII es = true →
      ∃ out, xtreeRun search directory depthArg rootOK es = some out) := by
  refine ⟨highlight_ascii_total, ?_⟩
  intro search directory depthArg rootOK es h
  cases hb : build_tree_dict directory (rustToLowercase search)
      (parseDepth depthArg) rootOK es with
  | none =>
    refine ⟨noMatchMsg, ?_⟩
    show (match build_tree_dict directory (rustToLowercase search)
        (parseDepth depthArg) rootOK es with
      | some tree =>
        match print_tree tree (rustToLowercase search) [] false false with
        | some r => some (tree.nameOf ++ '\n' :: r.1)
        | none => none
      | none => some noMatchMsg) = some noMatchMsg
    rw [hb]
  | some tr =>
    have htr : tr = Tree.node directory
        (scan_dir rootOK es 0 (parseDepth depthArg) (rustToLowercase search)).1 := by
      unfold build_tree_dict at hb
      by_cases hz : (scan_dir rootOK es 0 (parseDepth depthArg)
          (rustToLowercase search)).2 = 0
      · simp [hz] at hb
      · simp [hz] at hb
        exact hb.symm
    have hforest : forestASCII tr.childrenOf = true := by
      rw [htr]
      exact scan_dir_ascii rootOK es 0 (parseDepth depthArg)
        (rustToLowercase search) h
    obtain ⟨r, hr⟩ := printChildren_ascii_total tr.childrenOf
      (rustToLowercase search) [] false hforest
    have hpt : print_tree tr (rustToLowercase search) [] false false =
        some (r.1 ++ footerLines r.2, r.2) := by
      cases tr with
      | node tn tcs =>
        unfold print_tree
        rw [show (Tree.node tn tcs).childrenOf = tcs from rfl] at hr
        rw [hr]
        simp
    refine ⟨tr.nameOf ++ '\n' :: (r.1 ++ footerLines r.2), ?_⟩
    show (match build_tree_dict directory (rustToLowercase search)
        (parseDepth depthArg) rootOK es with
      | some tree =>
        match print_tree tree (rustToLowercase search) [] false false with
        | some r => some (tree.nameOf ++ '\n' :: r.1)
        | none => none
      | none => some noMatchMsg) = _
    rw [hb]
    dsimp only
    rw [hpt]

/-- Counterexample to C6 as stated: with the expected input of a directory
named `aẞ` (a well-formed non-ASCII name) and the non-empty search term `ß`,
the highlighter's slice of the original name at the byte offsets found in its
lowercased form runs past a character boundary and panics, aborting the whole
program run. -/
theorem xtree_panics_on_nonascii_cex :
    xtreeRun "ß".toList ".".toList none true
      (toDL [.dir "aẞ".toList true .nil]) = none := by decide

/-- Witness for C6 at concrete inputs: an ASCII name is highlighted without
panic and a run over an ASCII filesystem produces output. -/
theorem xtree_no_panic_on_ascii_witness :
    (∃ r, highlight_substring "aB".toList "b".toList = some r) ∧
    (∃ out, xtreeRun "b".toList ".".toList none true
      (toDL [.dir "aB".toList true .nil]) = some out) := by
  constructor
  · exact xtree_no_panic_on_ascii.1 "aB".toList "b".toList (by decide)
  · exact xtree_no_panic_on_ascii.2 "b".toList ".".toList none true
      (toDL [.dir "aB".toList true .nil]) (by decide)

end XtreeModel

